import Mathlib

/-!
Verification development for the java8script lazy stream library.

The embedding translates `src/processor.ts`, the terminal and static
operations of `src/stream/index.ts`, and `src/functions/index.ts` into
executable Lean definitions.  The JS `Optional` collaborator is modelled
by Lean's `Option`; a JS value that may itself be `undefined` is modelled
as `Option V` with `none` standing for `undefined`.  Parts of the
repository that are referenced but whose sources are not available
(`ProcessorPipeline`, `Source`) are modelled from the specification and
say so in their doc comments.
-/

namespace Java8Script

/-- `BiPredicate.defaultEquality` (src/functions/index.ts): the equality
test `(i1, i2) => i1 === i2`, modelled by decidable equality. -/
def BiPredicate.defaultEquality {I : Type} [DecidableEq I] : I → I → Bool :=
  fun i1 i2 => decide (i1 = i2)

/-- State of `DistinctProcessor` (src/processor.ts): the input queue
`inputs` inherited from `AbstractProcessor`, and `distinctList`, the
optional buffer of distinct values computed on the first pull
(`Optional.empty()` until then). -/
structure DistinctProcessor (I : Type) where
  inputs : List I
  distinctList : Option (List I)
deriving DecidableEq

/-- `AbstractProcessor.add` as inherited by `DistinctProcessor`:
`this.inputs.push(input)`.  It receives no comparator and touches no
other field.  -/
def DistinctProcessor.add {I : Type} (s : DistinctProcessor I) (input : I) :
    DistinctProcessor I :=
  { s with inputs := s.inputs ++ [input] }

/-- The `forEach` loop of `DistinctProcessor.processValues`: the first
component accumulates `distinctList` (an item is pushed when
`distinctList.filter(doesMatchItem)` is empty, where
`doesMatchItem = (distinct) => this.comparator(item, distinct)`); the
second component counts comparator invocations — JS `Array.filter`
applies its callback to every element of the receiver. -/
def processValuesGo {I : Type} (comparator : I → I → Bool) :
    List I → List I → List I × Nat
  | distinct, [] => (distinct, 0)
  | distinct, item :: rest =>
      let matchingItems := distinct.filter (fun d => comparator item d)
      let next := if matchingItems.length = 0 then distinct ++ [item] else distinct
      let r := processValuesGo comparator next rest
      (r.1, distinct.length + r.2)

/-- `DistinctProcessor.processValues`: builds the distinct list from the
whole input queue, clears `inputs`, and stores the list in
`distinctList`.  Also returns the comparator invocation count. -/
def DistinctProcessor.processValues {I : Type} (comparator : I → I → Bool)
    (s : DistinctProcessor I) : DistinctProcessor I × Nat :=
  let r := processValuesGo comparator [] s.inputs
  ({ inputs := [], distinctList := some r.1 }, r.2)

/-- `DistinctProcessor.processAndGetNext`.  When `distinctList` is absent
the code runs `processValues` and recurses, landing in the present
branch, which shifts the head off the stored list
(`Optional.ofNullable(this.distinctList.get().shift())`); the recursion
is unrolled here.  Returns the emitted optional, the successor state,
and the number of comparator invocations made by the call. -/
def DistinctProcessor.processAndGetNext {I : Type} (comparator : I → I → Bool)
    (s : DistinctProcessor I) : Option I × DistinctProcessor I × Nat :=
  match s.distinctList with
  | none =>
      let r := processValuesGo comparator [] s.inputs
      (r.1.head?, ⟨[], some r.1.tail⟩, r.2)
  | some d => (d.head?, ⟨s.inputs, some d.tail⟩, 0)

/-- `DistinctProcessor.hasNext`:
`this.inputs.length > 0 || distinctListExistsAndHasValues`. -/
def DistinctProcessor.hasNext {I : Type} (s : DistinctProcessor I) : Bool :=
  !s.inputs.isEmpty ||
    (match s.distinctList with
     | some d => !d.isEmpty
     | none => false)

/-- An interaction with a `DistinctProcessor`: either `add` one input or
call `processAndGetNext` once. -/
inductive DistinctOp (I : Type) where
  | add (input : I)
  | pull
deriving DecidableEq

/-- Runs a sequence of interactions against a `DistinctProcessor`,
collecting the optional outputs of the `pull` steps in order. -/
def DistinctProcessor.run {I : Type} (comparator : I → I → Bool) :
    List (DistinctOp I) → DistinctProcessor I → List (Option I) × DistinctProcessor I
  | [], s => ([], s)
  | DistinctOp.add x :: ops, s => DistinctProcessor.run comparator ops (s.add x)
  | DistinctOp.pull :: ops, s =>
      let r := s.processAndGetNext comparator
      let rest := DistinctProcessor.run comparator ops r.2.1
      (r.1 :: rest.1, rest.2)

/-- The distinct rule as the specification words it: walk the inputs in
order, keep an element exactly when no already-kept element is equal to
it under the supplied test. -/
def distinctSpecGo {I : Type} (comparator : I → I → Bool) :
    List I → List I → List I
  | kept, [] => kept
  | kept, x :: rest =>
      if kept.all (fun d => !comparator x d)
      then distinctSpecGo comparator (kept ++ [x]) rest
      else distinctSpecGo comparator kept rest

/-- First-occurrence distinct per the specification, starting from an
empty kept list. -/
def distinctSpec {I : Type} (comparator : I → I → Bool) (xs : List I) : List I :=
  distinctSpecGo comparator [] xs

/-- `AbstractProcessor.takeNextInput`:
`Optional.ofNullable(this.inputs.shift())`.  The queue stores JS values
that may themselves be `undefined` (`none`); `shift()` yields
`undefined` both on an empty queue and when the head is a queued
`undefined`, and `ofNullable` collapses either to an empty optional
while the head (if any) is removed. -/
def takeNextInput {V : Type} : List (Option V) → Option V × List (Option V)
  | [] => (none, [])
  | x :: rest => (x, rest)

/-- `MapProcessor.processAndGetNext`:
`this.takeNextInput().map(this.transformer)`.  Returns the output, the
remaining queue, and the number of transformer invocations
(`Optional.map` applies its function only to a present value). -/
def MapProcessor.processAndGetNext {V U : Type} (transformer : V → U)
    (inputs : List (Option V)) : Option U × List (Option V) × Nat :=
  match takeNextInput inputs with
  | (none, rest) => (none, rest, 0)
  | (some v, rest) => (some (transformer v), rest, 1)

/-- `FilterProcessor.processAndGetNext`:
`this.takeNextInput().filter(this.predicate)`.  Returns the output, the
remaining queue, and the number of predicate invocations. -/
def FilterProcessor.processAndGetNext {V : Type} (p : V → Bool)
    (inputs : List (Option V)) : Option V × List (Option V) × Nat :=
  match takeNextInput inputs with
  | (none, rest) => (none, rest, 0)
  | (some v, rest) => (if p v then some v else none, rest, 1)

/-!
Terminal operations of `PipelineStream` (src/stream/index.ts).  Each one
loops on `getNextProcessedItem()` and stops at the first empty optional,
so the observable behaviour of the pipeline towards a terminal
operation is exactly the list of values the successive pulls yield
before the first empty one; that list is the model of the stream state
here.  Where the claims speak about how often the caller-supplied
functions run, the model additionally counts pulls and invocations.
-/

/-- `PipelineStream.allMatch`: pull; while present, return `false` on
the first element failing the predicate, else keep pulling; `true` once
a pull comes back empty.  Returns (result, pulls performed, predicate
invocations). -/
def allMatch {T : Type} (p : T → Bool) : List T → Bool × Nat × Nat
  | [] => (true, 1, 0)
  | x :: xs =>
      if p x = false then (false, 1, 1)
      else
        let r := allMatch p xs
        (r.1, r.2.1 + 1, r.2.2 + 1)

/-- `PipelineStream.noneMatch`: pull; while present, return `false` on
the first element satisfying the predicate; `true` once a pull comes
back empty.  Returns (result, pulls, predicate invocations). -/
def noneMatch {T : Type} (p : T → Bool) : List T → Bool × Nat × Nat
  | [] => (true, 1, 0)
  | x :: xs =>
      if p x = true then (false, 1, 1)
      else
        let r := noneMatch p xs
        (r.1, r.2.1 + 1, r.2.2 + 1)

/-- `PipelineStream.anyMatch`: pull; while present, return `true` on
the first element satisfying the predicate; `false` once a pull comes
back empty.  Returns (result, pulls, predicate invocations). -/
def anyMatch {T : Type} (p : T → Bool) : List T → Bool × Nat × Nat
  | [] => (false, 1, 0)
  | x :: xs =>
      if p x = true then (true, 1, 1)
      else
        let r := anyMatch p xs
        (r.1, r.2.1 + 1, r.2.2 + 1)

/-- `PipelineStream.reduce`: `currentValue` starts as
`Optional.ofNullable(initialValue)`; for each pulled item, accumulate
when a current value is present, otherwise adopt the item. -/
def reduce {T : Type} (accumulator : T → T → T) (initialValue : Option T) :
    List T → Option T
  | [] => initialValue
  | x :: xs =>
      match initialValue with
      | some v => reduce accumulator (some (accumulator v x)) xs
      | none => reduce accumulator (some x) xs

/-- Invocation counts of the three collector callables during a
`customCollect` run. -/
structure CollectorCalls where
  supplierCalls : Nat
  accumulatorCalls : Nat
  combinerCalls : Nat
deriving DecidableEq

/-- The accumulation loop of `PipelineStream.customCollect`, threading
the container and the accumulator invocation count. -/
def customCollectLoop {R T : Type} (accumulator : R → T → R) :
    R × Nat → List T → R × Nat
  | acc, [] => acc
  | acc, x :: xs => customCollectLoop accumulator (accumulator acc.1 x, acc.2 + 1) xs

/-- `PipelineStream.customCollect`: `supplier()` is called exactly once
(the single `supplier()` expression in its body), every pulled element
is fed to the accumulator in pull order, and the combiner argument is
never referenced, hence zero combiner invocations. -/
def customCollect {R T : Type} (supplier : Unit → R) (accumulator : R → T → R)
    (xs : List T) : R × CollectorCalls :=
  let container := supplier ()
  let r := customCollectLoop accumulator (container, 0) xs
  (r.1, ⟨1, r.2, 0⟩)

/-- The three-argument overload of `PipelineStream.collect`
(src/stream/index.ts lines 537-539): the `else if (accumulator &&
combiner)` branch evaluates `this.customCollect(firstArg, accumulator,
combiner)` but has no `return`, so the call returns `undefined`
(modelled `none`). -/
def collectThreeArg {R T : Type} (supplier : Unit → R) (accumulator : R → T → R)
    (xs : List T) : Option R :=
  let _ := customCollect supplier accumulator xs
  none

/-- `PipelineStream.getNextProcessedItem` →
`pipeline.getNextResult()`: one pull against the stream state. -/
def getNextProcessedItem {T : Type} : List T → Option T × List T
  | [] => (none, [])
  | x :: xs => (some x, xs)

/-- `PipelineStream.findFirst`: `return this.getNextProcessedItem()`. -/
def findFirst {T : Type} (s : List T) : Option T :=
  (getNextProcessedItem s).1

/-- `PipelineStream.findAny`: `return this.getNextProcessedItem()`. -/
def findAny {T : Type} (s : List T) : Option T :=
  (getNextProcessedItem s).1

/-!
Numeric range sources.  `Stream.range` delegates to
`Source.rangeSource`, whose file is not under src/; it is modelled from
the specification.  `Stream.rangeClosed` itself is in
src/stream/index.ts and is translated from that code.
-/

/-- Modelled from the spec: `Source.rangeSource` is not under src/.
§4.1: the range source yields `start, start+step, start+2*step, …`
strictly before the exclusive bound; the sign of the step is normalized
to the direction implied by comparing start and bound; if start equals
the bound it yields nothing.  Numbers are modelled as integers; the
spec leaves a zero step undefined and it is modelled as yielding
nothing. -/
def rangeList (startInclusive endExclusive step : Int) : List Int :=
  let s : Nat := step.natAbs
  if s = 0 then []
  else if startInclusive < endExclusive then
    let d : Nat := (endExclusive - startInclusive).toNat
    (List.range ((d + s - 1) / s)).map (fun k : Nat => startInclusive + (k : Int) * (s : Int))
  else if endExclusive < startInclusive then
    let d : Nat := (startInclusive - endExclusive).toNat
    (List.range ((d + s - 1) / s)).map (fun k : Nat => startInclusive - (k : Int) * (s : Int))
  else []

/-- `Stream.rangeClosed` (src/stream/index.ts lines 389-393):
`startInclusive < endInclusive ? Stream.range(startInclusive,
endInclusive + 1, step) : Stream.range(startInclusive, endInclusive -
1, step)`. -/
def rangeClosedList (startInclusive endInclusive step : Int) : List Int :=
  if startInclusive < endInclusive
  then rangeList startInclusive (endInclusive + 1) step
  else rangeList startInclusive (endInclusive - 1) step

/-!
The pipeline pull protocol for `iterate(seed, getNext).limit(maxSize)`.
`ProcessorPipeline`, `Source.iterateSource` and
`Processor.limitProcessor` are not under src/ and are modelled from the
specification.
-/

/-- Modelled from the spec: `Source.iterateSource` is not under src/.
§4.1 seeded-iteration source: the n-th produced element (counting from
zero) is the n-fold application of the step function to the seed. -/
def iterateElem {T : Type} (seed : T) (getNext : T → T) : Nat → T
  | 0 => seed
  | n + 1 => iterateElem (getNext seed) getNext n

/-- State of the two-link pipeline `iterate(seed, getNext).limit(maxSize)`:
how many elements have been pulled from the seeded-iteration source,
how many the limit stage has emitted, and the limit stage's input
queue. -/
structure LimitPipeline (T : Type) where
  sourcePulls : Nat
  emitted : Nat
  queue : List T
deriving DecidableEq

/-- The fresh pipeline: nothing pulled, nothing emitted, empty queue. -/
def LimitPipeline.init {T : Type} : LimitPipeline T :=
  ⟨0, 0, []⟩

/-- Modelled from the spec: `ProcessorPipeline.getNextResult` and
`Processor.limitProcessor` are not under src/.  §4.3 pull-feed-retry:
try the last stage; on empty, pull one element from upstream, feed it,
retry; §4.2: the limit stage emits queued inputs unchanged until
`maxSize` have been emitted, then reports permanently exhausted, and
§4.3's short-circuit requirement forbids any further upstream pull once
it has.  Since the limit stage emits each fed input unchanged, the
retry loop needs at most one upstream pull per result and is unrolled
into a single step. -/
def limitGetNextResult {T : Type} (maxSize : Nat) (seed : T) (getNext : T → T)
    (st : LimitPipeline T) : Option T × LimitPipeline T :=
  if maxSize ≤ st.emitted then (none, st)
  else
    match st.queue with
    | x :: rest => (some x, ⟨st.sourcePulls, st.emitted + 1, rest⟩)
    | [] =>
        let v := iterateElem seed getNext st.sourcePulls
        (some v, ⟨st.sourcePulls + 1, st.emitted + 1, []⟩)

/-- Performs `n` successive `getNextResult` calls (the drain loop every
terminal operation runs), collecting the values of the present
results. -/
def limitDrain {T : Type} (maxSize : Nat) (seed : T) (getNext : T → T) :
    Nat → LimitPipeline T → List T × LimitPipeline T
  | 0, st => ([], st)
  | n + 1, st =>
      match limitGetNextResult maxSize seed getNext st with
      | (none, st1) => ([], st1)
      | (some v, st1) =>
          let r := limitDrain maxSize seed getNext n st1
          (v :: r.1, r.2)

end Java8Script

namespace Java8Script

theorem reduce_some_eq_foldl {T : Type} (accumulator : T → T → T) :
    ∀ (xs : List T) (s : T),
      reduce accumulator (some s) xs = some (xs.foldl accumulator s) := by
  intro xs
  induction xs with
  | nil => intro s; rfl
  | cons x rest ih => intro s; simpa [reduce] using ih (accumulator s x)

theorem customCollectLoop_eq {R T : Type} (accumulator : R → T → R) :
    ∀ (xs : List T) (c : R) (n : Nat),
      customCollectLoop accumulator (c, n) xs = (xs.foldl accumulator c, n + xs.length) := by
  intro xs
  induction xs with
  | nil => intro c n; simp [customCollectLoop]
  | cons x rest ih =>
      intro c n
      simp [customCollectLoop, ih, Nat.add_comm, Nat.add_assoc, Nat.add_left_comm]

theorem processValuesGo_fst {I : Type} (comparator : I → I → Bool) :
    ∀ (xs acc : List I),
      (processValuesGo comparator acc xs).1 = distinctSpecGo comparator acc xs := by
  intro xs
  induction xs with
  | nil => intro acc; rfl
  | cons x rest ih =>
      intro acc
      have key : ((acc.filter (fun d => comparator x d)).length = 0)
          ↔ (acc.all (fun d => !comparator x d) = true) := by
        simp [List.length_eq_zero, List.filter_eq_nil_iff, List.all_eq_true]
      by_cases h : (acc.filter (fun d => comparator x d)).length = 0
      · simp only [processValuesGo, distinctSpecGo, if_pos h, if_pos (key.mp h)]
        exact ih _
      · simp only [processValuesGo, distinctSpecGo, if_neg h,
          if_neg (fun hh => h (key.mpr hh))]
        exact ih _

theorem allMatch_short_circuit {T : Type} (p : T → Bool) :
    ∀ (ys : List T) (d : T) (zs : List T),
      (∀ y ∈ ys, p y = true) → p d = false →
      allMatch p (ys ++ d :: zs) = (false, ys.length + 1, ys.length + 1) := by
  intro ys
  induction ys with
  | nil => intro d zs _ hd; simp [allMatch, hd]
  | cons y ys ih =>
      intro d zs hy hd
      have hyt : p y = true := hy y (by simp)
      have := ih d zs (fun a ha => hy a (by simp [ha])) hd
      simp [allMatch, hyt, this]

theorem anyMatch_short_circuit {T : Type} (p : T → Bool) :
    ∀ (ys : List T) (d : T) (zs : List T),
      (∀ y ∈ ys, p y = false) → p d = true →
      anyMatch p (ys ++ d :: zs) = (true, ys.length + 1, ys.length + 1) := by
  intro ys
  induction ys with
  | nil => intro d zs _ hd; simp [anyMatch, hd]
  | cons y ys ih =>
      intro d zs hy hd
      have hyt : p y = false := hy y (by simp)
      have := ih d zs (fun a ha => hy a (by simp [ha])) hd
      simp [anyMatch, hyt, this]

theorem noneMatch_short_circuit {T : Type} (p : T → Bool) :
    ∀ (ys : List T) (d : T) (zs : List T),
      (∀ y ∈ ys, p y = false) → p d = true →
      noneMatch p (ys ++ d :: zs) = (false, ys.length + 1, ys.length + 1) := by
  intro ys
  induction ys with
  | nil => intro d zs _ hd; simp [noneMatch, hd]
  | cons y ys ih =>
      intro d zs hy hd
      have hyt : p y = false := hy y (by simp)
      have := ih d zs (fun a ha => hy a (by simp [ha])) hd
      simp [noneMatch, hyt, this]

theorem run_outputs_mem {I : Type} (comparator : I → I → Bool) :
    ∀ (ops : List (DistinctOp I)) (s : DistinctProcessor I) (b : List I),
      s.distinctList = some b →
      ∀ v : I, some v ∈ (DistinctProcessor.run comparator ops s).1 → v ∈ b := by
  intro ops
  induction ops with
  | nil => intro s b hb v hv; simp [DistinctProcessor.run] at hv
  | cons op ops ih =>
      intro s b hb v hv
      cases op with
      | add x =>
          simp only [DistinctProcessor.run] at hv
          exact ih (s.add x) b (by simp [DistinctProcessor.add, hb]) v hv
      | pull =>
          have hpn : s.processAndGetNext comparator
              = (b.head?, ⟨s.inputs, some b.tail⟩, 0) := by
            unfold DistinctProcessor.processAndGetNext
            rw [hb]
          simp only [DistinctProcessor.run, hpn, List.mem_cons] at hv
          rcases hv with hv | hv
          · cases b with
            | nil => simp at hv
            | cons h t => simp at hv; simp [hv]
          · have hmem := ih ⟨s.inputs, some b.tail⟩ b.tail rfl v hv
            cases b with
            | nil => simp at hmem
            | cons h t => exact List.mem_cons_of_mem h hmem

theorem natStepBound (d s k : Nat) (hs : 1 ≤ s) (hd : 1 ≤ d)
    (hk : k < (d + s - 1) / s) : k * s < d := by
  have h2 : d + s - 1 = (d - 1) + s := by omega
  rw [h2, Nat.add_div_right _ (by omega)] at hk
  have hk2 : k ≤ (d - 1) / s := Nat.lt_succ_iff.mp hk
  have h3 : k * s ≤ ((d - 1) / s) * s := Nat.mul_le_mul_right s hk2
  have h4 : ((d - 1) / s) * s ≤ d - 1 := Nat.div_mul_le_self _ _
  exact Nat.lt_of_le_of_lt (h3.trans h4) (Nat.sub_lt hd Nat.one_pos)

theorem rangeList_mem_lt (a c step : Int) :
    ∀ x ∈ rangeList a c step, a < c → x < c := by
  intro x hx hac
  unfold rangeList at hx
  by_cases h0 : step.natAbs = 0
  · simp [h0] at hx
  · rw [if_neg h0, if_pos hac] at hx
    simp only [List.mem_map, List.mem_range] at hx
    obtain ⟨k, hk, rfl⟩ := hx
    have hs1 : 1 ≤ step.natAbs := Nat.one_le_iff_ne_zero.mpr h0
    have hd1 : 1 ≤ (c - a).toNat := by omega
    have key : k * step.natAbs < (c - a).toNat :=
      natStepBound ((c - a).toNat) (step.natAbs) k hs1 hd1 hk
    have keyz : ((k : Int)) * ((step.natAbs : Nat) : Int) < (((c - a).toNat : Nat) : Int) := by
      exact_mod_cast key
    have htn : ((((c - a).toNat : Nat)) : Int) = c - a := Int.toNat_of_nonneg (by omega)
    rw [htn] at keyz
    linarith

end Java8Script

namespace Java8Script

/-- Claim C1: `iterate(s, f).limit(3)` drained by a terminal operation
terminates and yields exactly `[s, f(s), f(f(s))]` with exactly three
pulls on the infinite source, and once a limit stage has emitted its
bound the pipeline performs no further upstream pulls: the pull returns
empty and leaves the state — in particular the source pull count —
untouched. -/
theorem limit_on_iterate_short_circuits :
    ∀ (T : Type) (s : T) (f : T → T),
      limitDrain 3 s f 4 LimitPipeline.init = ([s, f s, f (f s)], ⟨3, 3, []⟩)
      ∧ ∀ (maxSize : Nat) (st : LimitPipeline T), maxSize ≤ st.emitted →
          limitGetNextResult maxSize s f st = (none, st) := by
  intro T s f
  refine ⟨rfl, ?_⟩
  intro maxSize st h
  unfold limitGetNextResult
  rw [if_pos h]

/-- Witness for C1 at `T = Nat`, seed 1, step `Nat.succ`, and a state
that has already emitted its bound of 3. -/
theorem limit_on_iterate_short_circuits_witness :
    limitDrain 3 (1 : Nat) Nat.succ 4 LimitPipeline.init = ([1, 2, 3], ⟨3, 3, []⟩)
    ∧ limitGetNextResult 3 (1 : Nat) Nat.succ ⟨3, 3, []⟩ = (none, ⟨3, 3, []⟩) := by
  have h := limit_on_iterate_short_circuits Nat 1 Nat.succ
  exact ⟨h.1, h.2 3 ⟨3, 3, []⟩ (by decide)⟩

/-- Claim C2: the distinct stage operation `add` only appends to the input queue (it
receives no equality test and produces no output), the first
`processAndGetNext` call drains the entire input queue into the
distinct buffer before returning anything (the successor state has an
empty queue and the full processed buffer), and every later call emits
exactly the head of the precomputed buffer — or empty — with zero
equality-test invocations. -/
theorem distinct_stage_contract :
    ∀ (I : Type) (comparator : I → I → Bool) (s : DistinctProcessor I) (x : I),
      (s.add x = ⟨s.inputs ++ [x], s.distinctList⟩)
      ∧ (s.distinctList = none →
          s.processAndGetNext comparator =
            ((processValuesGo comparator [] s.inputs).1.head?,
             ⟨[], some (processValuesGo comparator [] s.inputs).1.tail⟩,
             (processValuesGo comparator [] s.inputs).2))
      ∧ (∀ d, s.distinctList = some d →
          s.processAndGetNext comparator = (d.head?, ⟨s.inputs, some d.tail⟩, 0)) := by
  intro I comparator s x
  refine ⟨rfl, ?_, ?_⟩
  · intro h
    unfold DistinctProcessor.processAndGetNext
    rw [h]
  · intro d h
    unfold DistinctProcessor.processAndGetNext
    rw [h]

/-- Witness for C2: an `add`, a first pull over queue `[1,2,2]` (three
comparator invocations, queue drained), and a buffered pull over
`[1,2]` with a stale queued `9` (one element emitted, zero comparator
invocations). -/
theorem distinct_stage_contract_witness :
    (DistinctProcessor.add ⟨[1, 2], none⟩ 5 = (⟨[1, 2, 5], none⟩ : DistinctProcessor Nat))
    ∧ DistinctProcessor.processAndGetNext (fun a b : Nat => a == b) ⟨[1, 2, 2], none⟩
        = (some 1, ⟨[], some [2]⟩, 3)
    ∧ DistinctProcessor.processAndGetNext (fun a b : Nat => a == b) ⟨[9], some [1, 2]⟩
        = (some 1, ⟨[9], some [2]⟩, 0) := by
  have h1 := (distinct_stage_contract Nat (fun a b => a == b) ⟨[1, 2], none⟩ 5).1
  have h2 := (distinct_stage_contract Nat (fun a b => a == b) ⟨[1, 2, 2], none⟩ 0).2.1 rfl
  have h3 := (distinct_stage_contract Nat (fun a b => a == b) ⟨[9], some [1, 2]⟩ 0).2.2 [1, 2] rfl
  exact ⟨h1, h2.trans (by decide), h3.trans (by decide)⟩

/-- Claim C3: the distinct computation keeps exactly the elements with no
equal predecessor among the kept ones, in first-occurrence order
(`distinctSpec` is that description verbatim), and draining the
distinct processor over `[1,2,2,3,1]` with the default identity
equality yields `[1,2,3]`. -/
theorem distinct_first_occurrence :
    (∀ (I : Type) (comparator : I → I → Bool) (xs : List I),
       (processValuesGo comparator [] xs).1 = distinctSpec comparator xs)
    ∧ (DistinctProcessor.run (BiPredicate.defaultEquality)
         [DistinctOp.pull, DistinctOp.pull, DistinctOp.pull, DistinctOp.pull]
         (⟨[1, 2, 2, 3, 1], none⟩ : DistinctProcessor Nat)).1
        = [some 1, some 2, some 3, none] := by
  refine ⟨?_, by decide⟩
  intro I comparator xs
  exact processValuesGo_fst comparator xs []

/-- Claim C4: on an empty sequence `allMatch`, `anyMatch` and `noneMatch`
return `true`, `false`, `true` after a single (empty) pull with zero
predicate invocations; on a sequence whose first determining element
sits after `ys`, each returns right there with `ys.length + 1` pulls
and predicate invocations, pulling nothing further. -/
theorem match_terminal_ops :
    (∀ (T : Type) (p : T → Bool),
       allMatch p ([] : List T) = (true, 1, 0)
       ∧ anyMatch p ([] : List T) = (false, 1, 0)
       ∧ noneMatch p ([] : List T) = (true, 1, 0))
    ∧ (∀ (T : Type) (p : T → Bool) (ys : List T) (d : T) (zs : List T),
        (∀ y ∈ ys, p y = true) → p d = false →
          allMatch p (ys ++ d :: zs) = (false, ys.length + 1, ys.length + 1))
    ∧ (∀ (T : Type) (p : T → Bool) (ys : List T) (d : T) (zs : List T),
        (∀ y ∈ ys, p y = false) → p d = true →
          anyMatch p (ys ++ d :: zs) = (true, ys.length + 1, ys.length + 1))
    ∧ (∀ (T : Type) (p : T → Bool) (ys : List T) (d : T) (zs : List T),
        (∀ y ∈ ys, p y = false) → p d = true →
          noneMatch p (ys ++ d :: zs) = (false, ys.length + 1, ys.length + 1)) := by
  refine ⟨fun T p => ⟨rfl, rfl, rfl⟩, ?_, ?_, ?_⟩
  · intro T p ys d zs hy hd
    exact allMatch_short_circuit p ys d zs hy hd
  · intro T p ys d zs hy hd
    exact anyMatch_short_circuit p ys d zs hy hd
  · intro T p ys d zs hy hd
    exact noneMatch_short_circuit p ys d zs hy hd

/-- Witness for C4: the empty cases at `T = Nat`, and the three
short-circuit cases on `[0,1] ++ 5 :: [7]`. -/
theorem match_terminal_ops_witness :
    allMatch (fun n : Nat => decide (n < 2)) ([] : List Nat) = (true, 1, 0)
    ∧ allMatch (fun n : Nat => decide (n < 2)) ([0, 1] ++ 5 :: [7]) = (false, 2 + 1, 2 + 1)
    ∧ anyMatch (fun n : Nat => decide (2 ≤ n)) ([0, 1] ++ 5 :: [7]) = (true, 2 + 1, 2 + 1)
    ∧ noneMatch (fun n : Nat => decide (2 ≤ n)) ([0, 1] ++ 5 :: [7]) = (false, 2 + 1, 2 + 1) := by
  refine ⟨(match_terminal_ops.1 Nat _).1, ?_, ?_, ?_⟩
  · exact match_terminal_ops.2.1 Nat _ [0, 1] 5 [7] (by decide) (by decide)
  · exact match_terminal_ops.2.2.1 Nat _ [0, 1] 5 [7] (by decide) (by decide)
  · exact match_terminal_ops.2.2.2 Nat _ [0, 1] 5 [7] (by decide) (by decide)

/-- Claim C5: `reduce` with no seed on an empty sequence is empty; with a
seed on an empty sequence it is the seed wrapped present; on any
sequence it is the left-to-right fold from the seed when given,
otherwise from the first element; and `reduce((a,b)=>a+b)` on
`[1,2,3,4]` with no seed returns `10`. -/
theorem reduce_terminal_spec :
    (∀ (T : Type) (accumulator : T → T → T),
       reduce accumulator none ([] : List T) = none
       ∧ (∀ s : T, reduce accumulator (some s) [] = some s)
       ∧ (∀ (s : T) (xs : List T),
           reduce accumulator (some s) xs = some (xs.foldl accumulator s))
       ∧ (∀ (x : T) (xs : List T),
           reduce accumulator none (x :: xs) = some (xs.foldl accumulator x)))
    ∧ reduce (fun a b : Nat => a + b) none [1, 2, 3, 4] = some 10 := by
  refine ⟨?_, by decide⟩
  intro T accumulator
  refine ⟨rfl, fun s => rfl, ?_, ?_⟩
  · intro s xs
    exact reduce_some_eq_foldl accumulator xs s
  · intro x xs
    simpa [reduce] using reduce_some_eq_foldl accumulator xs x

/-- Claim C7 (code bug): `customCollect` calls the supplier once, feeds every
element to the accumulator in pull order (the container is the left
fold) and never invokes the combiner — but the three-argument overload
of `collect` drops the container computed by `customCollect` and
returns `undefined`, so on `[1,2]` the two do not return the same
container. -/
theorem collect_three_arg_loses_container :
    (∀ (R T : Type) (supplier : Unit → R) (accumulator : R → T → R) (xs : List T),
       customCollect supplier accumulator xs
         = (xs.foldl accumulator (supplier ()), ⟨1, xs.length, 0⟩)
       ∧ collectThreeArg supplier accumulator xs = none)
    ∧ customCollect (fun _ => ([] : List Nat)) (fun r t => r ++ [t]) [1, 2]
        = ([1, 2], ⟨1, 2, 0⟩)
    ∧ collectThreeArg (fun _ => ([] : List Nat)) (fun r t => r ++ [t]) [1, 2]
        ≠ some (customCollect (fun _ => ([] : List Nat)) (fun r t => r ++ [t]) [1, 2]).1 := by
  refine ⟨?_, by decide, by decide⟩
  intro R T supplier accumulator xs
  constructor
  · simp [customCollect, customCollectLoop_eq]
  · rfl

/-- Claim C8: `findAny` and `findFirst` are extensionally equal — both are
the outcome of a single pull: the first element wrapped present, or
empty on an empty stream. -/
theorem findAny_eq_findFirst :
    ∀ (T : Type) (s : List T),
      findAny s = findFirst s
      ∧ findFirst s = (getNextProcessedItem s).1
      ∧ findFirst ([] : List T) = none
      ∧ ∀ (x : T) (xs : List T), findFirst (x :: xs) = some x := by
  intro T s
  exact ⟨rfl, rfl, rfl, fun x xs => rfl⟩

/-- Claim C9: when the head of the queue of a map or filter stage is the JS value
`undefined` (`none`), `processAndGetNext` removes it and returns empty
with zero transformer/predicate invocations — observationally the same
output and invocation count as pulling on an empty queue. -/
theorem undefined_element_dropped :
    ∀ (V U : Type) (transformer : V → U) (p : V → Bool) (rest : List (Option V)),
      MapProcessor.processAndGetNext transformer (none :: rest) = (none, rest, 0)
      ∧ FilterProcessor.processAndGetNext p (none :: rest) = (none, rest, 0)
      ∧ MapProcessor.processAndGetNext transformer ([] : List (Option V)) = (none, [], 0)
      ∧ FilterProcessor.processAndGetNext p ([] : List (Option V)) = (none, [], 0) := by
  intro V U transformer p rest
  exact ⟨rfl, rfl, rfl, rfl⟩

/-- Claim C10: once the distinct buffer exists (`distinctList = some b`, set
by the first pull and never recomputed), every value any later
interleaving of `add`s and pulls emits is an element of `b` — an
element added afterwards is never emitted; and with a drained buffer
but a stale queued input, `hasNext` still answers `true` while the next
pull returns empty. -/
theorem distinct_buffer_computed_once :
    ∀ (I : Type) (comparator : I → I → Bool) (s : DistinctProcessor I) (b : List I),
      s.distinctList = some b →
      (∀ (ops : List (DistinctOp I)) (v : I),
         some v ∈ (DistinctProcessor.run comparator ops s).1 → v ∈ b)
      ∧ (∀ (inputs : List I) (x : I),
          DistinctProcessor.hasNext (⟨inputs ++ [x], some []⟩ : DistinctProcessor I) = true
          ∧ (DistinctProcessor.processAndGetNext comparator
               (⟨inputs ++ [x], some []⟩ : DistinctProcessor I)).1 = none) := by
  intro I comparator s b hb
  constructor
  · intro ops v hv
    exact run_outputs_mem comparator ops s b hb v hv
  · intro inputs x
    constructor
    · simp [DistinctProcessor.hasNext]
    · unfold DistinctProcessor.processAndGetNext
      rfl

/-- Witness for C10: a processor whose buffer is `[1,2]`; one pull
emits `1`, which the theorem places in the buffer; and with a drained
buffer and stale queued `9`, `hasNext` is `true` while the pull is
empty. -/
theorem distinct_buffer_computed_once_witness :
    ((1 : Nat) ∈ [1, 2])
    ∧ DistinctProcessor.hasNext (⟨[] ++ [9], some []⟩ : DistinctProcessor Nat) = true
    ∧ (DistinctProcessor.processAndGetNext (fun a b : Nat => a == b)
         (⟨[] ++ [9], some []⟩ : DistinctProcessor Nat)).1 = none := by
  have h := distinct_buffer_computed_once Nat (fun a b => a == b) ⟨[], some [1, 2]⟩ [1, 2] rfl
  exact ⟨h.1 [DistinctOp.pull] 1 (by decide), (h.2 [] 9).1, (h.2 [] 9).2⟩

/-- Claim C6 counterexample: the claim says `rangeClosed(a, b, s)` for
`a < b` equals `range(a, b + s, s)`; at `(0, 5, 2)` the code gives
`[0,2,4]` while `range(0, 5 + 2, 2)` gives `[0,2,4,6]`. -/
theorem rangeClosed_not_step_shift :
    rangeClosedList 0 5 2 = [0, 2, 4]
    ∧ rangeList 0 (5 + 2) 2 = [0, 2, 4, 6]
    ∧ rangeClosedList 0 5 2 ≠ rangeList 0 (5 + 2) 2 := by
  decide

/-- Claim C6 amended: `rangeClosed` includes the closed bound by shifting the
exclusive bound outward by one unit, not by one full step: for `a < b`
it equals `range(a, b + 1, s)`, never yields a value past the closed
bound even when the step overshoots it, and `rangeClosed(0, 5, 2)`
yields `[0,2,4]`. -/
theorem rangeClosed_widens_by_one :
    (∀ (a b step : Int), a < b →
       rangeClosedList a b step = rangeList a (b + 1) step
       ∧ ∀ x ∈ rangeClosedList a b step, x ≤ b)
    ∧ rangeClosedList 0 5 2 = [0, 2, 4] := by
  refine ⟨?_, by decide⟩
  intro a b step hab
  have heq : rangeClosedList a b step = rangeList a (b + 1) step := by
    unfold rangeClosedList
    rw [if_pos hab]
  refine ⟨heq, ?_⟩
  intro x hx
  rw [heq] at hx
  have := rangeList_mem_lt a (b + 1) step x hx (by omega)
  omega

/-- Witness for the amended claim C6 at `(0, 5, 2)` and the member
`4`. -/
theorem rangeClosed_widens_by_one_witness :
    rangeClosedList 0 5 2 = rangeList 0 (5 + 1) 2 ∧ (4 : Int) ≤ 5 := by
  have h := rangeClosed_widens_by_one.1 0 5 2 (by decide)
  exact ⟨h.1, h.2 4 (by decide)⟩

end Java8Script
